import Mathlib

/-!
Verification of the SPC weekly-monitor core: a shallow embedding of the
cross-week accumulation logic of charts.run_imr_spc, the memory-store
operations of memory.MemoryStore, and the metrics helpers of
src/spc/metrics.py, together with theorems settling the frozen claims.

Conventions of the embedding:
 - Python strings are Lean String; Python's string comparison (by code
   points) is the hand-rolled strLt below.
 - Python float values that matter to the claims are modelled as exact
   rationals; float(Char.inf) is the PyFloat.inf constructor.
 - A raised exception in a fallible operation turns the operation into
   an Option/Except returning none/error.
 - list.sort is modelled by a stable insertion sort: Python's sort is
   stable, and any two stable sorts agree on every input list.
-/

/-- Comparison of character lists by code point, the order Python uses on
strings (shorter strict prefix sorts first). -/
def strLtList : List Char → List Char → Bool
  | [], [] => false
  | [], _ :: _ => true
  | _ :: _, [] => false
  | c :: cs, d :: ds =>
    if c.toNat < d.toNat then true
    else if d.toNat < c.toNat then false
    else strLtList cs ds

/-- Python string comparison on Lean strings. -/
def strLt (a b : String) : Bool := strLtList a.toList b.toList

theorem strLtList_irrefl : ∀ a : List Char, strLtList a a = false := by
  intro a
  induction a with
  | nil => rfl
  | cons c cs ih => simp [strLtList, ih]

theorem strLtList_asymm : ∀ a b : List Char,
    strLtList a b = true → strLtList b a = false := by
  intro a
  induction a with
  | nil =>
    intro b h
    cases b with
    | nil => simpa [strLtList] using h
    | cons d ds => simp [strLtList]
  | cons c cs ih =>
    intro b h
    cases b with
    | nil => simpa [strLtList] using h
    | cons d ds =>
      by_cases h1 : c.toNat < d.toNat
      · have h2 : ¬ d.toNat < c.toNat := by omega
        simp [strLtList, h1, h2]
      · by_cases h2 : d.toNat < c.toNat
        · simp [strLtList, h1, h2] at h
        · have hcs : strLtList cs ds = true := by simpa [strLtList, h1, h2] using h
          simpa [strLtList, h1, h2] using ih ds hcs

theorem strLtList_connex : ∀ a b : List Char,
    strLtList a b = false → strLtList b a = false → a = b := by
  intro a
  induction a with
  | nil =>
    intro b h1 h2
    cases b with
    | nil => rfl
    | cons d ds => simp [strLtList] at h1
  | cons c cs ih =>
    intro b h1 h2
    cases b with
    | nil => simp [strLtList] at h2
    | cons d ds =>
      by_cases hc1 : c.toNat < d.toNat
      · simp [strLtList, hc1] at h1
      · by_cases hc2 : d.toNat < c.toNat
        · simp [strLtList, hc2] at h2
        · have hcd : c.toNat = d.toNat := by omega
          have hch : c = d := Char.ext (UInt32.ext hcd)
          subst hch
          have h1' : strLtList cs ds = false := by simpa [strLtList, hc1, hc2] using h1
          have h2' : strLtList ds cs = false := by simpa [strLtList, hc1, hc2] using h2
          rw [ih ds h1' h2']

theorem strLtList_trans : ∀ a b c : List Char,
    strLtList a b = true → strLtList b c = true → strLtList a c = true := by
  intro a
  induction a with
  | nil =>
    intro b c h1 h2
    cases b with
    | nil => simp [strLtList] at h1
    | cons d ds =>
      cases c with
      | nil => simp [strLtList] at h2
      | cons e es => simp [strLtList]
  | cons x xs ih =>
    intro b c h1 h2
    cases b with
    | nil => simp [strLtList] at h1
    | cons d ds =>
      cases c with
      | nil => simp [strLtList] at h2
      | cons e es =>
        by_cases hxd : x.toNat < d.toNat
        · by_cases hde : d.toNat < e.toNat
          · have : x.toNat < e.toNat := by omega
            simp [strLtList, this]
          · by_cases hed : e.toNat < d.toNat
            · simp [strLtList, hde, hed] at h2
            · have : x.toNat < e.toNat := by omega
              simp [strLtList, this]
        · by_cases hdx : d.toNat < x.toNat
          · simp [strLtList, hxd, hdx] at h1
          · by_cases hde : d.toNat < e.toNat
            · have : x.toNat < e.toNat := by omega
              simp [strLtList, this]
            · by_cases hed : e.toNat < d.toNat
              · simp [strLtList, hde, hed] at h2
              · have hxe : ¬ x.toNat < e.toNat := by omega
                have hex : ¬ e.toNat < x.toNat := by omega
                have h1' : strLtList xs ds = true := by simpa [strLtList, hxd, hdx] using h1
                have h2' : strLtList ds es = true := by simpa [strLtList, hde, hed] using h2
                simpa [strLtList, hxe, hex] using ih ds es h1' h2'

theorem strLt_asymm (a b : String) : strLt a b = true → strLt b a = false :=
  strLtList_asymm a.toList b.toList

theorem strLt_connex (a b : String) :
    strLt a b = false → strLt b a = false → a = b := by
  intro h1 h2
  exact String.ext (strLtList_connex a.toList b.toList h1 h2)

theorem strLt_trans (a b c : String) :
    strLt a b = true → strLt b c = true → strLt a c = true :=
  strLtList_trans a.toList b.toList c.toList

theorem strLt_irrefl (a : String) : strLt a a = false :=
  strLtList_irrefl a.toList

/-- Value of a decimal digit character, none on any other character. -/
def digitVal (c : Char) : Option ℕ :=
  if 48 ≤ c.toNat ∧ c.toNat ≤ 57 then some (c.toNat - 48) else none

def parseDigitsGo : List Char → ℕ → Option ℕ
  | [], acc => some acc
  | c :: cs, acc =>
    match digitVal c with
    | some d => parseDigitsGo cs (acc * 10 + d)
    | none => none

/-- Nonempty run of decimal digits read as a number. -/
def parseDigits : List Char → Option ℕ
  | [] => none
  | c :: cs => parseDigitsGo (c :: cs) 0

/-- Model of Python int(s) on the id strings this program stores: an
optional sign followed by decimal digits; any other string raises
ValueError, modelled as none.  (Python also tolerates surrounding
whitespace and underscores between digits; the ids handled here never
contain those, so they are not modelled.) -/
def pyInt (s : String) : Option ℤ :=
  match s.toList with
  | [] => none
  | c :: cs =>
    if c.toNat = 45 then (parseDigits cs).map (fun n => -(n : ℤ))
    else if c.toNat = 43 then (parseDigits cs).map (fun n => (n : ℤ))
    else (parseDigits (c :: cs)).map (fun n => (n : ℤ))

/-- One record stored in a memory bucket, the JSON object
with fields type / week / id / value built in memory.add_imr_points. -/
structure Obs where
  type : String
  week : String
  id : String
  value : ℚ
deriving DecidableEq

/-- int(r.get("id", 0)) as used in the sort key of add_imr_points; the
getD 0 default is only reachable after the numeric check has passed,
Python raises ValueError instead. -/
def intId (r : Obs) : ℤ := (pyInt r.id).getD 0

/-- Whether int() would accept this record's id. -/
def idOk (r : Obs) : Bool := (pyInt r.id).isSome

/-- Sort-key comparison (type, week, int(id)), lexicographically, from
bucket.sort(key=lambda r: (r.get("type"), r.get("week"), int(r.get("id", 0)))). -/
def obsLE (r s : Obs) : Bool :=
  if strLt r.type s.type then true
  else if strLt s.type r.type then false
  else if strLt r.week s.week then true
  else if strLt s.week r.week then false
  else decide (intId r ≤ intId s)

def obsLe (r s : Obs) : Prop := obsLE r s = true

instance : DecidableRel obsLe := fun r s => by unfold obsLe; infer_instance

theorem strLt_trichot (a b : String) :
    strLt a b = true ∨ (a = b ∧ strLt a b = false ∧ strLt b a = false) ∨ strLt b a = true := by
  by_cases h1 : strLt a b = true
  · exact Or.inl h1
  · by_cases h2 : strLt b a = true
    · exact Or.inr (Or.inr h2)
    · have h1f : strLt a b = false := by simpa using h1
      have h2f : strLt b a = false := by simpa using h2
      exact Or.inr (Or.inl ⟨strLt_connex a b h1f h2f, h1f, h2f⟩)

theorem obsLE_iff (r s : Obs) : obsLE r s = true ↔
    (strLt r.type s.type = true ∨
      (r.type = s.type ∧ (strLt r.week s.week = true ∨
        (r.week = s.week ∧ intId r ≤ intId s)))) := by
  unfold obsLE
  by_cases h1 : strLt r.type s.type = true
  · simp [h1]
  · have h1f : strLt r.type s.type = false := by simpa using h1
    by_cases h2 : strLt s.type r.type = true
    · have hne : r.type ≠ s.type := by
        intro he; rw [he] at h2
        exact absurd h2 (by simp [strLt_irrefl])
      simp [h1f, h2, hne]
    · have h2f : strLt s.type r.type = false := by simpa using h2
      have hte : r.type = s.type := strLt_connex _ _ h1f h2f
      by_cases h3 : strLt r.week s.week = true
      · simp [h1f, h2f, h3, hte, strLt_irrefl]
      · have h3f : strLt r.week s.week = false := by simpa using h3
        by_cases h4 : strLt s.week r.week = true
        · have hwne : r.week ≠ s.week := by
            intro he; rw [he] at h4
            exact absurd h4 (by simp [strLt_irrefl])
          simp [h1f, h2f, h3f, h4, hte, hwne, strLt_irrefl]
        · have h4f : strLt s.week r.week = false := by simpa using h4
          have hwe : r.week = s.week := strLt_connex _ _ h3f h4f
          simp [h1f, h2f, h3f, h4f, hte, hwe, strLt_irrefl]

instance : IsTotal Obs obsLe := by
  constructor
  intro r s
  unfold obsLe
  rw [obsLE_iff, obsLE_iff]
  rcases strLt_trichot r.type s.type with h | ⟨he, _, _⟩ | h
  · exact Or.inl (Or.inl h)
  · rcases strLt_trichot r.week s.week with hw | ⟨hwe, _, _⟩ | hw
    · exact Or.inl (Or.inr ⟨he, Or.inl hw⟩)
    · rcases Int.le_total (intId r) (intId s) with hv | hv
      · exact Or.inl (Or.inr ⟨he, Or.inr ⟨hwe, hv⟩⟩)
      · exact Or.inr (Or.inr ⟨he.symm, Or.inr ⟨hwe.symm, hv⟩⟩)
    · exact Or.inr (Or.inr ⟨he.symm, Or.inl hw⟩)
  · exact Or.inr (Or.inl h)

instance : IsTrans Obs obsLe := by
  constructor
  intro r s t hrs hst
  unfold obsLe at *
  rw [obsLE_iff] at hrs hst ⊢
  rcases hrs with h1 | ⟨he1, hw1⟩
  · rcases hst with h2 | ⟨he2, _⟩
    · exact Or.inl (strLt_trans _ _ _ h1 h2)
    · exact Or.inl (by rw [← he2]; exact h1)
  · rcases hst with h2 | ⟨he2, hw2⟩
    · exact Or.inl (by rw [he1]; exact h2)
    · refine Or.inr ⟨he1.trans he2, ?_⟩
      rcases hw1 with hww1 | ⟨hwe1, hv1⟩
      · rcases hw2 with hww2 | ⟨hwe2, _⟩
        · exact Or.inl (strLt_trans _ _ _ hww1 hww2)
        · exact Or.inl (by rw [← hwe2]; exact hww1)
      · rcases hw2 with hww2 | ⟨hwe2, hv2⟩
        · exact Or.inl (by rw [hwe1]; exact hww2)
        · exact Or.inr ⟨hwe1.trans hwe2, le_trans hv1 hv2⟩

/-- The seen-set of (week, id) tags built from the records already in the
bucket (memory.py line 64); it is computed once, before the loop. -/
def seenTags (bucket : List Obs) : List (String × String) :=
  bucket.filterMap (fun r => if r.type = "IMR" then some (r.week, r.id) else none)

/-- The records the append loop adds: one per zipped (id, value) pair whose
(week, id) tag is not in the pre-computed seen-set.  The set is not
extended inside the loop, so repeats inside one batch are all appended. -/
def freshObs (bucket : List Obs) (week : String) (ids : List String)
    (values : List ℚ) : List Obs :=
  (ids.zip values).filterMap
    (fun p => if (week, p.1) ∈ seenTags bucket then none else some (Obs.mk "IMR" week p.1 p.2))

/-- MemoryStore.add_imr_points on one bucket (memory.py lines 53-71):
append the non-seen part of the batch, then re-sort by
(type, week, int(id)).  int() raising ValueError on a non-numeric id
during the sort is modelled as none; the stable insertion sort models
list.sort. -/
def add_imr_points (bucket : List Obs) (week : String) (ids : List String)
    (values : List ℚ) : Option (List Obs) :=
  let merged := bucket ++ freshObs bucket week ids values
  if merged.all idOk then some (List.insertionSort obsLe merged) else none

/-- Truthiness test Python applies to exclude_week before comparing:
None and the empty string are falsy. -/
def exclMatches (excl : Option String) (w : String) : Bool :=
  match excl with
  | none => false
  | some e => if e = "" then false else w == e

/-- Loop of MemoryStore.take_imr_until; taken counts the values collected
so far, and the loop breaks right after the append that reaches need. -/
def takeGo : List Obs → Option ℕ → Option String → ℕ → List String × List ℚ
  | [], _, _, _ => ([], [])
  | r :: rest, need, excl, taken =>
    if r.type ≠ "IMR" then takeGo rest need excl taken
    else if exclMatches excl r.week then takeGo rest need excl taken
    else
      match need with
      | some k =>
        if k ≤ taken + 1 then ([r.week], [r.value])
        else
          let p := takeGo rest (some k) excl (taken + 1)
          (r.week :: p.1, r.value :: p.2)
      | none =>
        let p := takeGo rest none excl taken
        (r.week :: p.1, r.value :: p.2)

/-- MemoryStore.take_imr_until on one bucket (memory.py lines 73-98):
historical points oldest-first, skipping non-IMR records and the excluded
week, all of them when need is none, else up to need of them; the bucket
itself is left untouched (the function only reads). -/
def take_imr_until (bucket : List Obs) (need : Option ℕ) (excl : Option String) :
    List String × List ℚ := takeGo bucket need excl 0

/-- The durable content of the memory store: key "product|feature" to
bucket, insertion-ordered like a Python dict. -/
abbrev MemStore := List (String × List Obs)

/-- Key format "<product>|<feature>" from MemoryStore._key. -/
def storeKey (product feature : String) : String := product ++ "|" ++ feature

/-- self.data.get(key, []). -/
def lookupKey (mem : MemStore) (k : String) : List Obs := (mem.lookup k).getD []

/-- Writing one key of the dict (setdefault followed by in-place update):
an existing key keeps its position, a new key is appended at the end. -/
def setKey (mem : MemStore) (k : String) (v : List Obs) : MemStore :=
  if mem.any (fun p => p.1 == k) then
    mem.map (fun p => if p.1 = k then (k, v) else p)
  else mem ++ [(k, v)]

/-- del self.data[key]; removing an absent key is a no-op here because
clear_feature guards with "if key in self.data". -/
def eraseKey (mem : MemStore) (k : String) : MemStore :=
  mem.filter (fun p => p.1 != k)

/-- MemoryStore.clear_feature (memory.py lines 101-106). -/
def clear_feature (mem : MemStore) (product feature : String) : MemStore :=
  eraseKey mem (storeKey product feature)

/-- The single-quote character, written via its code point. -/
def sglQuote : String := String.singleton (Char.ofNat 39)

/-- The console progress message of the deferring branch of run_imr_spc
(charts.py lines 134-138). -/
def accumMsg (product feature : String) (n m total threshold : ℕ) : String :=
  "Accumulating " ++ sglQuote ++ product ++ " | " ++ feature ++ sglQuote ++ ": current(" ++
    toString n ++ ") + history(" ++ toString m ++ ") = " ++ toString total ++
    "/" ++ toString threshold ++ " points. No chart yet."

/-- need as computed on charts.py line 123; Nat subtraction matches
Python's max(threshold - len(cur_vals), 0). -/
def needOf (strategy : String) (threshold n : ℕ) : Option ℕ :=
  if strategy = "fill_to_threshold" then some (threshold - n) else none

/-- Observable outcome of one run_imr_spc invocation over the durable
state.  errored: an uncaught ValueError ended the run (durable state
unchanged because _save was never reached).  producedChart: a chart was
rendered (READY).  sigmaWrites: keys written to the sigma cache this
run. -/
structure RunOut where
  errored : Bool
  producedChart : Bool
  chartInput : List ℚ
  histUsed : List ℚ
  histWeeks : List String
  message : Option String
  memAfter : MemStore
  sigmaWrites : List String
deriving DecidableEq

/-- The accumulation / rollover core of charts.run_imr_spc (lines 116-215)
over the durable state.  Rendering, the spreadsheet read and the limit
handling are external; a READY outcome stands for a successful render,
after which the code writes the sigma cache and clears the feature's
bucket. -/
def run_imr_spc (mem : MemStore) (product feature week : String)
    (curIds : List String) (curVals : List ℚ)
    (threshold : ℕ) (strategy : String) : RunOut :=
  let key := storeKey product feature
  let bucket := lookupKey mem key
  if curVals.length < threshold then
    let taken := take_imr_until bucket (needOf strategy threshold curVals.length) (some week)
    let combined := taken.2 ++ curVals
    if combined.length < threshold then
      match add_imr_points bucket week curIds curVals with
      | none => ⟨true, false, [], taken.2, taken.1, none, mem, []⟩
      | some b2 =>
        ⟨false, false, [], taken.2, taken.1,
          some (accumMsg product feature curVals.length taken.2.length combined.length threshold),
          setKey mem key b2, []⟩
    else ⟨false, true, combined, taken.2, taken.1, none, eraseKey mem key, [key]⟩
  else ⟨false, true, curVals, [], [], none, eraseKey mem key, [key]⟩

/-- A Python float as far as the metrics need it: an exact finite value
or float(Char.inf). -/
inductive PyFloat where
  | fin (q : ℚ)
  | inf
deriving DecidableEq

def listMean (l : List ℚ) : ℚ := l.sum / (l.length : ℚ)

/-- numpy sample variance with ddof=1, the square of y_series.std(ddof=1);
meaningful for length ≥ 2 (numpy yields nan below, which the theorems
exclude by hypothesis). -/
def sampleVar (l : List ℚ) : ℚ :=
  ((l.map (fun x => (x - listMean l) ^ 2)).sum) / ((l.length : ℚ) - 1)

/-- charts.py line 144. -/
def cpOf (usl lsl std : ℚ) : PyFloat :=
  if 0 < std then .fin ((usl - lsl) / (6 * std)) else .inf

/-- charts.py line 145. -/
def cpkOf (usl lsl mean std : ℚ) : PyFloat :=
  if 0 < std then .fin (min ((usl - mean) / (3 * std)) ((mean - lsl) / (3 * std))) else .inf

/-- Python round to nearest with ties to even, on an exact rational. -/
def roundHE (q : ℚ) : ℤ :=
  if q - ⌊q⌋ < 1 / 2 then ⌊q⌋
  else if 1 / 2 < q - ⌊q⌋ then ⌊q⌋ + 1
  else if 2 ∣ ⌊q⌋ then ⌊q⌋ else ⌊q⌋ + 1

/-- round(x, 3). -/
def round3 (q : ℚ) : ℚ := (roundHE (q * 1000) : ℚ) / 1000

/-- charts.py line 146: round(cpk * 3, 3) if np.isfinite(cpk) else inf. -/
def sigmaLevelOf (cpk : PyFloat) : PyFloat :=
  match cpk with
  | .fin q => .fin (round3 (q * 3))
  | .inf => .inf

/-- metrics.sigma_to_risk (src/spc/metrics.py lines 8-15); a non-finite
sigma is "N/A". -/
def sigma_to_risk (s : PyFloat) : String :=
  match s with
  | .inf => "N/A"
  | .fin q =>
    if q < 3 then "High risk"
    else if q < 4 then "Poor"
    else if q < 9 / 2 then "Moderate"
    else if q < 5 then "Acceptable"
    else if q < 6 then "Good"
    else "Excellent"

structure SpcMetrics where
  mean : ℚ
  cp : PyFloat
  cpk : PyFloat
  sigmaLevel : PyFloat
  riskLevel : String
deriving DecidableEq

/-- The metrics block of run_imr_spc (charts.py lines 141-147),
parametrised by the standard deviation the code computes with numpy; the
theorems constrain std by std ≥ 0 and std ^ 2 = sampleVar combined. -/
def computeMetrics (combined : List ℚ) (usl lsl std : ℚ) : SpcMetrics :=
  let m := listMean combined
  let cpk := cpkOf usl lsl m std
  let sl := sigmaLevelOf cpk
  ⟨m, cpOf usl lsl std, cpk, sl, sigma_to_risk sl⟩

/-- Loop underlying the OOC comprehension; idx is the 0-based position of
the head of the remaining list. -/
def oocGo : List ℚ → ℚ → ℚ → ℕ → List ℕ
  | [], _, _, _ => []
  | v :: rest, ucl, lcl, idx =>
    if ucl < v ∨ v < lcl then (idx + 1) :: oocGo rest ucl lcl (idx + 1)
    else oocGo rest ucl lcl (idx + 1)

/-- ooc_ids from charts.py lines 160-161: the 1-indexed positions of the
combined sequence whose value is strictly above UCL or strictly below
LCL. -/
def ooc_ids (vals : List ℚ) (ucl lcl : ℚ) : List ℕ := oocGo vals ucl lcl 0

/-- State of a persisted JSON store's backing file as the loader sees it. -/
inductive FileState (α : Type) where
  | missing
  | malformed
  | good (content : α)

/-- json.load: returns the parsed content on a well-formed file, raises
(error) otherwise; open() on a missing path also raises. -/
def jsonLoad {α : Type} : FileState α → Except Unit α
  | .good c => .ok c
  | .malformed => .error ()
  | .missing => .error ()

/-- Load phase of MemoryStore.__init__ (memory.py lines 30-39): a missing
file is skipped by the os.path.exists guard, a malformed one raises inside
the try and the except resets to the empty store. -/
def memoryInit (f : FileState MemStore) : MemStore :=
  match f with
  | .missing => []
  | g =>
    match jsonLoad g with
    | .ok d => d
    | .error _ => []

/-- charts._load_last_sigma (charts.py lines 32-41): missing file returns
None early, a malformed one raises inside the try and the except returns
None, otherwise data.get(key) (None when the key is absent). -/
def load_last_sigma (f : FileState (List (String × ℚ))) (product feature : String) :
    Option ℚ :=
  match f with
  | .missing => none
  | g =>
    match jsonLoad g with
    | .ok d => d.lookup (storeKey product feature)
    | .error _ => none

/-!  Helper lemmas about the embedded operations. -/

/-- The historical IMR records a successful exclusion pass keeps: type IMR
and a week other than the excluded one. -/
def histRecords (bucket : List Obs) (week : String) : List Obs :=
  bucket.filter (fun r => r.type == "IMR" && r.week != week)

theorem takeGo_none (week : String) (hw : week ≠ "") :
    ∀ (bucket : List Obs) (taken : ℕ),
      takeGo bucket none (some week) taken =
        ((histRecords bucket week).map Obs.week, (histRecords bucket week).map Obs.value) := by
  intro bucket
  induction bucket with
  | nil => intro taken; rfl
  | cons r rest ih =>
    intro taken
    by_cases ht : r.type = "IMR"
    · by_cases hwk : r.week = week
      · simp [takeGo, ht, exclMatches, hw, hwk, histRecords, ih taken]
      · simp [takeGo, ht, exclMatches, hw, hwk, histRecords, ih taken]
    · simp [takeGo, ht, histRecords, ih taken]

theorem takeGo_some (week : String) (hw : week ≠ "") :
    ∀ (bucket : List Obs) (k taken : ℕ), taken < k →
      takeGo bucket (some k) (some week) taken =
        (((histRecords bucket week).map Obs.week).take (k - taken),
         ((histRecords bucket week).map Obs.value).take (k - taken)) := by
  intro bucket
  induction bucket with
  | nil => intro k taken _; simp [takeGo, histRecords]
  | cons r rest ih =>
    intro k taken hk
    by_cases ht : r.type = "IMR"
    · by_cases hwk : r.week = week
      · simp [takeGo, ht, exclMatches, hw, hwk, histRecords, ih k taken hk]
      · by_cases hstop : k ≤ taken + 1
        · have h1 : k - taken = 1 := by omega
          simp [takeGo, ht, exclMatches, hw, hwk, hstop, histRecords, h1]
        · have h2 : taken + 1 < k := by omega
          have h3 : k - taken = (k - (taken + 1)) + 1 := by omega
          simp [takeGo, ht, exclMatches, hw, hwk, hstop, histRecords, ih k (taken + 1) h2, h3]
    · simp [takeGo, ht, histRecords, ih k taken hk]

theorem take_imr_until_none (bucket : List Obs) (week : String) (hw : week ≠ "") :
    take_imr_until bucket none (some week) =
      ((histRecords bucket week).map Obs.week, (histRecords bucket week).map Obs.value) :=
  takeGo_none week hw bucket 0

theorem take_imr_until_some (bucket : List Obs) (week : String) (k : ℕ)
    (hw : week ≠ "") (hk : 0 < k) :
    take_imr_until bucket (some k) (some week) =
      (((histRecords bucket week).map Obs.week).take k,
       ((histRecords bucket week).map Obs.value).take k) := by
  have h := takeGo_some week hw bucket k 0 hk
  simpa [take_imr_until] using h


theorem lookup_eraseKey_self (mem : MemStore) (k : String) :
    (eraseKey mem k).lookup k = none := by
  induction mem with
  | nil => rfl
  | cons p rest ih =>
    obtain ⟨a, b⟩ := p
    by_cases h : a = k
    · simpa [eraseKey, List.filter_cons, h] using ih
    · have hb2 : (k == a) = false := by simp [Ne.symm h]
      have hne : (a != k) = true := by simp [h]
      simp only [eraseKey, List.filter_cons, hne, if_true, List.lookup_cons, hb2, if_false]
      simpa [eraseKey] using ih

theorem lookup_eraseKey_ne (mem : MemStore) (k k2 : String) (h : k2 ≠ k) :
    (eraseKey mem k).lookup k2 = mem.lookup k2 := by
  induction mem with
  | nil => rfl
  | cons p rest ih =>
    obtain ⟨a, b⟩ := p
    by_cases hp : a = k
    · subst hp
      have hb2 : (k2 == a) = false := by simp [h]
      simp only [eraseKey, List.filter_cons, bne_self_eq_false, if_false, List.lookup_cons, hb2]
      simpa [eraseKey] using ih
    · have hne : (a != k) = true := by simp [hp]
      by_cases he : k2 = a
      · simp [eraseKey, List.filter_cons, hne, List.lookup_cons, he]
      · have hb2 : (k2 == a) = false := by simp [he]
        simp only [eraseKey, List.filter_cons, hne, if_true, List.lookup_cons, hb2, if_false]
        simpa [eraseKey] using ih

theorem lookup_setKey_ne (mem : MemStore) (k : String) (v : List Obs) (k2 : String)
    (h : k2 ≠ k) :
    (setKey mem k v).lookup k2 = mem.lookup k2 := by
  unfold setKey
  by_cases hany : mem.any (fun p => p.1 == k) = true
  · rw [if_pos hany]
    clear hany
    induction mem with
    | nil => rfl
    | cons p rest ih =>
      obtain ⟨a, b⟩ := p
      rw [List.map_cons]
      by_cases hp : a = k
      · subst hp
        have h1 : (if ((a, b) : String × List Obs).1 = a then (a, v) else (a, b)) = (a, v) := by
          simp
        rw [h1]
        have hb2 : (k2 == a) = false := by simp [h]
        rw [List.lookup_cons, List.lookup_cons]
        simp only [hb2, if_false]
        exact ih
      · have h1 : (if ((a, b) : String × List Obs).1 = k then (k, v) else (a, b)) = (a, b) := by
          simp [hp]
        rw [h1]
        by_cases he : k2 = a
        · subst he
          rw [List.lookup_cons, List.lookup_cons]
          simp
        · have hb2 : (k2 == a) = false := by simp [he]
          rw [List.lookup_cons, List.lookup_cons]
          simp only [hb2, if_false]
          exact ih
  · rw [if_neg hany]
    clear hany
    induction mem with
    | nil =>
      have hb2 : (k2 == k) = false := by simp [h]
      simp [List.lookup_cons, hb2]
    | cons p rest ih =>
      obtain ⟨a, b⟩ := p
      rw [List.cons_append, List.lookup_cons, List.lookup_cons]
      by_cases he : k2 = a
      · simp [he]
      · have hb2 : (k2 == a) = false := by simp [he]
        simp only [hb2, if_false]
        exact ih

theorem oocGo_mem (ucl lcl : ℚ) :
    ∀ (vals : List ℚ) (idx j : ℕ),
      j ∈ oocGo vals ucl lcl idx ↔
        ∃ i, ∃ h : i < vals.length,
          j = idx + i + 1 ∧ (ucl < vals.get ⟨i, h⟩ ∨ vals.get ⟨i, h⟩ < lcl) := by
  intro vals
  induction vals with
  | nil =>
    intro idx j
    simp [oocGo]
  | cons v rest ih =>
    intro idx j
    by_cases hf : ucl < v ∨ v < lcl
    · simp only [oocGo, if_pos hf, List.mem_cons, ih (idx + 1) j]
      constructor
      · rintro (rfl | ⟨i, hi, rfl, hflag⟩)
        · exact ⟨0, Nat.succ_pos _, by omega, hf⟩
        · exact ⟨i + 1, by simp only [List.length_cons]; omega, by omega, hflag⟩
      · rintro ⟨i, hi, rfl, hflag⟩
        cases i with
        | zero => exact Or.inl (by omega)
        | succ i2 =>
          have hi2 : i2 < rest.length := by
            simp only [List.length_cons] at hi; omega
          exact Or.inr ⟨i2, hi2, by omega, hflag⟩
    · simp only [oocGo, if_neg hf, ih (idx + 1) j]
      constructor
      · rintro ⟨i, hi, rfl, hflag⟩
        exact ⟨i + 1, by simp only [List.length_cons]; omega, by omega, hflag⟩
      · rintro ⟨i, hi, rfl, hflag⟩
        cases i with
        | zero => exact absurd hflag hf
        | succ i2 =>
          have hi2 : i2 < rest.length := by
            simp only [List.length_cons] at hi; omega
          exact ⟨i2, hi2, by omega, hflag⟩

theorem oocGo_gt (ucl lcl : ℚ) :
    ∀ (vals : List ℚ) (idx j : ℕ), j ∈ oocGo vals ucl lcl idx → idx < j := by
  intro vals
  induction vals with
  | nil => intro idx j h; simp [oocGo] at h
  | cons v rest ih =>
    intro idx j h
    by_cases hf : ucl < v ∨ v < lcl
    · rw [oocGo, if_pos hf] at h
      rcases List.mem_cons.mp h with rfl | h2
      · omega
      · have := ih (idx + 1) j h2
        omega
    · rw [oocGo, if_neg hf] at h
      have := ih (idx + 1) j h
      omega

theorem oocGo_sorted (ucl lcl : ℚ) :
    ∀ (vals : List ℚ) (idx : ℕ),
      List.Sorted (fun a b : ℕ => a < b) (oocGo vals ucl lcl idx) := by
  intro vals
  induction vals with
  | nil => intro idx; simp [oocGo, List.Sorted]
  | cons v rest ih =>
    intro idx
    by_cases hf : ucl < v ∨ v < lcl
    · rw [oocGo, if_pos hf]
      refine List.sorted_cons.mpr ⟨?_, ih (idx + 1)⟩
      intro b hb
      have := oocGo_gt ucl lcl rest (idx + 1) b hb
      omega
    · rw [oocGo, if_neg hf]
      exact ih (idx + 1)

/-- Two observations differ somewhere in their (week, id) tag. -/
def tagDistinct (r s : Obs) : Prop := ¬(r.week = s.week ∧ r.id = s.id)

theorem tagDistinct_symm {r s : Obs} (h : tagDistinct r s) : tagDistinct s r :=
  fun hc => h ⟨hc.1.symm, hc.2.symm⟩

theorem mem_seenTags {bucket : List Obs} {w i : String} :
    (w, i) ∈ seenTags bucket ↔ ∃ r ∈ bucket, r.type = "IMR" ∧ r.week = w ∧ r.id = i := by
  unfold seenTags
  rw [List.mem_filterMap]
  constructor
  · rintro ⟨r, hr, hf⟩
    by_cases ht : r.type = "IMR"
    · rw [if_pos ht] at hf
      have heq := Option.some.inj hf
      exact ⟨r, hr, ht, congrArg Prod.fst heq, congrArg Prod.snd heq⟩
    · rw [if_neg ht] at hf
      exact absurd hf (by simp)
  · rintro ⟨r, hr, ht, hw, hi⟩
    exact ⟨r, hr, by rw [if_pos ht, hw, hi]⟩

theorem mem_freshObs {bucket : List Obs} {week : String} {ids : List String}
    {values : List ℚ} {r : Obs} :
    r ∈ freshObs bucket week ids values ↔
      ∃ p ∈ ids.zip values, (week, p.1) ∉ seenTags bucket ∧
        r = Obs.mk "IMR" week p.1 p.2 := by
  unfold freshObs
  rw [List.mem_filterMap]
  constructor
  · rintro ⟨p, hp, hf⟩
    by_cases hs : (week, p.1) ∈ seenTags bucket
    · rw [if_pos hs] at hf
      exact absurd hf (by simp)
    · rw [if_neg hs] at hf
      exact ⟨p, hp, hs, (Option.some.inj hf).symm⟩
  · rintro ⟨p, hp, hs, rfl⟩
    exact ⟨p, hp, by rw [if_neg hs]⟩

theorem add_imr_points_eq_some {bucket : List Obs} {week : String} {ids : List String}
    {values : List ℚ} {b2 : List Obs}
    (h : add_imr_points bucket week ids values = some b2) :
    (bucket ++ freshObs bucket week ids values).all idOk = true ∧
      b2 = List.insertionSort obsLe (bucket ++ freshObs bucket week ids values) := by
  unfold add_imr_points at h
  by_cases hall : (bucket ++ freshObs bucket week ids values).all idOk = true
  · rw [if_pos hall] at h
    exact ⟨hall, (Option.some.inj h).symm⟩
  · rw [if_neg hall] at h
    exact absurd h (by simp)

theorem add_imr_points_perm {bucket : List Obs} {week : String} {ids : List String}
    {values : List ℚ} {b2 : List Obs}
    (h : add_imr_points bucket week ids values = some b2) :
    b2.Perm (bucket ++ freshObs bucket week ids values) := by
  rw [(add_imr_points_eq_some h).2]
  exact List.perm_insertionSort obsLe (bucket ++ freshObs bucket week ids values)

theorem pairwise_fst_ne_zip :
    ∀ {l1 : List String}, l1.Nodup → ∀ (l2 : List ℚ),
      List.Pairwise (fun p q : String × ℚ => p.1 ≠ q.1) (l1.zip l2) := by
  intro l1
  induction l1 with
  | nil => intro _ l2; simp
  | cons a t1 ih =>
    intro hnd l2
    cases l2 with
    | nil => simp
    | cons b t2 =>
      rw [List.zip_cons_cons, List.pairwise_cons]
      obtain ⟨hna, hnd'⟩ := List.nodup_cons.mp hnd
      refine ⟨?_, ih hnd' t2⟩
      rintro ⟨x, y⟩ hq rfl
      exact hna (List.of_mem_zip hq).1

theorem freshObs_fields {bucket : List Obs} {week : String} {ids : List String}
    {values : List ℚ} {r : Obs} (h : r ∈ freshObs bucket week ids values) :
    r.type = "IMR" ∧ r.week = week ∧ (week, r.id) ∉ seenTags bucket := by
  obtain ⟨p, _, hs, rfl⟩ := mem_freshObs.mp h
  exact ⟨rfl, rfl, hs⟩

theorem pairwise_tagDistinct_freshObs {bucket : List Obs} {week : String}
    {ids : List String} {values : List ℚ} (hids : ids.Nodup) :
    List.Pairwise tagDistinct (freshObs bucket week ids values) := by
  unfold freshObs
  rw [List.pairwise_filterMap]
  have hzip := pairwise_fst_ne_zip hids values
  refine hzip.imp ?_
  intro p q hne x hx y hy
  by_cases hs1 : (week, p.1) ∈ seenTags bucket
  · rw [if_pos hs1] at hx; exact absurd hx (by simp)
  · rw [if_neg hs1] at hx
    by_cases hs2 : (week, q.1) ∈ seenTags bucket
    · rw [if_pos hs2] at hy; exact absurd hy (by simp)
    · rw [if_neg hs2] at hy
      have hx' := Option.some.inj hx
      have hy' := Option.some.inj hy
      subst hx' hy'
      exact fun hc => hne hc.2

theorem pairwise_tagDistinct_merged {bucket : List Obs} {week : String}
    {ids : List String} {values : List ℚ}
    (hIMR : ∀ r ∈ bucket, r.type = "IMR")
    (hND : List.Pairwise tagDistinct bucket) (hids : ids.Nodup) :
    List.Pairwise tagDistinct (bucket ++ freshObs bucket week ids values) := by
  rw [List.pairwise_append]
  refine ⟨hND, pairwise_tagDistinct_freshObs hids, ?_⟩
  intro r hr s hs
  obtain ⟨_, hsw, hnotseen⟩ := freshObs_fields hs
  intro hc
  apply hnotseen
  rw [mem_seenTags]
  exact ⟨r, hr, hIMR r hr, hc.1.trans hsw, hc.2⟩

instance : DecidableRel tagDistinct := fun r s => by unfold tagDistinct; infer_instance

theorem add_imr_points_idem {bucket : List Obs} {week : String} {ids : List String}
    {values : List ℚ} {b1 b2 : List Obs}
    (h1 : add_imr_points bucket week ids values = some b1)
    (h2 : add_imr_points b1 week ids values = some b2) :
    b2.length = b1.length := by
  have hperm1 : b1.Perm (bucket ++ freshObs bucket week ids values) := add_imr_points_perm h1
  have htags : ∀ p ∈ ids.zip values, (week, p.1) ∈ seenTags b1 := by
    intro p hp
    by_cases hs : (week, p.1) ∈ seenTags bucket
    · obtain ⟨r, hr, ht, hw, hi⟩ := mem_seenTags.mp hs
      exact mem_seenTags.mpr ⟨r, (hperm1.mem_iff).mpr (List.mem_append_left _ hr), ht, hw, hi⟩
    · have hf : (Obs.mk "IMR" week p.1 p.2) ∈ freshObs bucket week ids values :=
        mem_freshObs.mpr ⟨p, hp, hs, rfl⟩
      exact mem_seenTags.mpr
        ⟨_, (hperm1.mem_iff).mpr (List.mem_append_right _ hf), rfl, rfl, rfl⟩
  have hfresh2 : freshObs b1 week ids values = [] := by
    rw [freshObs, List.filterMap_eq_nil_iff]
    intro p hp
    rw [if_pos (htags p hp)]
  obtain ⟨hall2, hb2⟩ := add_imr_points_eq_some h2
  rw [hfresh2, List.append_nil] at hb2
  rw [hb2]
  exact (List.perm_insertionSort obsLe b1).length_eq

/-- Order the sort establishes inside an all-IMR bucket: weeks ascending in
Python string order, numerically ascending ids inside one week. -/
def wkIdLe (r s : Obs) : Prop :=
  strLt r.week s.week = true ∨ (r.week = s.week ∧ intId r ≤ intId s)

instance : DecidableRel wkIdLe := fun r s => by unfold wkIdLe; infer_instance

theorem add_imr_points_sorted {bucket : List Obs} {week : String} {ids : List String}
    {values : List ℚ} {b2 : List Obs}
    (hIMR : ∀ r ∈ bucket, r.type = "IMR")
    (h : add_imr_points bucket week ids values = some b2) :
    List.Pairwise wkIdLe b2 ∧ ∀ r ∈ b2, r.type = "IMR" := by
  obtain ⟨hall, hb2⟩ := add_imr_points_eq_some h
  have hallIMR : ∀ r ∈ bucket ++ freshObs bucket week ids values, r.type = "IMR" := by
    intro r hr
    rcases List.mem_append.mp hr with hh | hh
    · exact hIMR r hh
    · exact (freshObs_fields hh).1
  have hmem : ∀ r ∈ b2, r.type = "IMR" := by
    intro r hr
    exact hallIMR r ((add_imr_points_perm h).mem_iff.mp hr)
  refine ⟨?_, hmem⟩
  have hsorted : List.Sorted obsLe b2 := by
    rw [hb2]; exact List.sorted_insertionSort obsLe _
  refine List.Pairwise.imp_of_mem ?_ hsorted
  intro r s hr hs hle
  have ht : r.type = s.type := by rw [hmem r hr, hmem s hs]
  rcases (obsLE_iff r s).mp hle with h1 | ⟨_, h2⟩
  · rw [ht] at h1
    exact absurd h1 (by simp [strLt_irrefl])
  · exact h2

/-- Claim C4, shown false as stated: a single append whose input repeats an
id for the same week appends both occurrences, because the seen-set is not
extended inside the loop; the resulting bucket holds two observations with
the same (week, id) pair. -/
theorem claim_c4_counterexample :
    add_imr_points [] "20240101-20240107" ["1", "1"] [1, 2] ≠ none ∧
      ¬ List.Pairwise tagDistinct
        ((add_imr_points [] "20240101-20240107" ["1", "1"] [1, 2]).getD []) := by
  constructor
  · decide
  · decide

/-- Claim C4 as amended: an append never adds an observation whose
(week, id) pair was already in the bucket before the call, so a bucket with
distinct tags stays duplicate-free whenever the batch itself repeats no id;
and a second append of an identical batch leaves the total count unchanged
unconditionally. -/
theorem claim_c4 :
    (∀ (bucket : List Obs) (week : String) (ids : List String) (values : List ℚ)
        (b2 : List Obs),
        (∀ r ∈ bucket, r.type = "IMR") →
        List.Pairwise tagDistinct bucket →
        ids.Nodup →
        add_imr_points bucket week ids values = some b2 →
        List.Pairwise tagDistinct b2)
    ∧ (∀ (bucket : List Obs) (week : String) (ids : List String) (values : List ℚ)
        (b1 b2 : List Obs),
        add_imr_points bucket week ids values = some b1 →
        add_imr_points b1 week ids values = some b2 →
        b2.length = b1.length) := by
  constructor
  · intro bucket week ids values b2 hIMR hND hids hadd
    exact (List.Perm.pairwise_iff (fun h => tagDistinct_symm h)
      (add_imr_points_perm hadd)).mpr (pairwise_tagDistinct_merged hIMR hND hids)
  · intro bucket week ids values b1 b2 h1 h2
    exact add_imr_points_idem h1 h2

theorem claim_c4_witness :
    List.Pairwise tagDistinct
      [Obs.mk "IMR" "20240101-20240107" "1" 1, Obs.mk "IMR" "20240101-20240107" "2" 2] ∧
    (2 : ℕ) = (2 : ℕ) := by
  constructor
  · exact claim_c4.1 [] "20240101-20240107" ["1", "2"] [1, 2]
      [Obs.mk "IMR" "20240101-20240107" "1" 1, Obs.mk "IMR" "20240101-20240107" "2" 2]
      (by decide) (by decide) (by decide) (by decide)
  · exact claim_c4.2 [] "20240101-20240107" ["1", "2"] [1, 2]
      [Obs.mk "IMR" "20240101-20240107" "1" 1, Obs.mk "IMR" "20240101-20240107" "2" 2]
      [Obs.mk "IMR" "20240101-20240107" "1" 1, Obs.mk "IMR" "20240101-20240107" "2" 2]
      (by decide) (by decide)

/-- Claim C5: after any append, an all-IMR bucket is sorted non-decreasing
by week (Python string order on the range tokens) and, within one week,
non-decreasing by the numeric value of the id; the bucket stays all-IMR, so
the property is preserved across any sequence of appends regardless of
insertion order. -/
theorem claim_c5 (bucket : List Obs) (week : String) (ids : List String)
    (values : List ℚ) (b2 : List Obs)
    (hIMR : ∀ r ∈ bucket, r.type = "IMR")
    (hadd : add_imr_points bucket week ids values = some b2) :
    List.Pairwise wkIdLe b2 ∧ ∀ r ∈ b2, r.type = "IMR" :=
  add_imr_points_sorted hIMR hadd

theorem claim_c5_witness :
    List.Pairwise wkIdLe
      [Obs.mk "IMR" "20240101-20240107" "2" 2, Obs.mk "IMR" "20240101-20240107" "10" 10] ∧
    ∀ r ∈ [Obs.mk "IMR" "20240101-20240107" "2" 2,
        Obs.mk "IMR" "20240101-20240107" "10" 10], r.type = "IMR" :=
  claim_c5 [] "20240101-20240107" ["10", "2"] [10, 2]
    [Obs.mk "IMR" "20240101-20240107" "2" 2, Obs.mk "IMR" "20240101-20240107" "10" 10]
    (by decide) (by decide)

/-- Claim C6: a 1-indexed position of the combined sequence is in ooc_ids
iff its value is strictly above UCL or strictly below LCL; the list is
ordered; with sane limits (LCL ≤ UCL) a value exactly equal to either
control limit is not flagged; and the result is the empty list, not none,
when nothing is flagged. -/
theorem claim_c6 (vals : List ℚ) (ucl lcl : ℚ) :
    (∀ i, ∀ h : i < vals.length,
        ((i + 1) ∈ ooc_ids vals ucl lcl ↔
          (ucl < vals.get ⟨i, h⟩ ∨ vals.get ⟨i, h⟩ < lcl)))
    ∧ List.Sorted (fun a b : ℕ => a < b) (ooc_ids vals ucl lcl)
    ∧ (lcl ≤ ucl → ∀ i, ∀ h : i < vals.length,
        (vals.get ⟨i, h⟩ = ucl ∨ vals.get ⟨i, h⟩ = lcl) →
          (i + 1) ∉ ooc_ids vals ucl lcl)
    ∧ ((∀ i, ∀ h : i < vals.length,
        ¬(ucl < vals.get ⟨i, h⟩ ∨ vals.get ⟨i, h⟩ < lcl)) →
          ooc_ids vals ucl lcl = []) := by
  have hmem : ∀ i, ∀ h : i < vals.length,
      ((i + 1) ∈ ooc_ids vals ucl lcl ↔
        (ucl < vals.get ⟨i, h⟩ ∨ vals.get ⟨i, h⟩ < lcl)) := by
    intro i h
    rw [ooc_ids, oocGo_mem]
    constructor
    · rintro ⟨i2, h2, heq, hflag⟩
      have : i2 = i := by omega
      subst this
      exact hflag
    · intro hflag
      exact ⟨i, h, by omega, hflag⟩
  refine ⟨hmem, oocGo_sorted ucl lcl vals 0, ?_, ?_⟩
  · intro hle i h heq hmemi
    have hflag := (hmem i h).mp hmemi
    rcases heq with he | he <;> rw [he] at hflag <;>
      rcases hflag with hf | hf <;> linarith
  · intro hnone
    rcases he : ooc_ids vals ucl lcl with _ | ⟨j, rest⟩
    · rfl
    · have hj : j ∈ ooc_ids vals ucl lcl := by rw [he]; exact List.mem_cons_self j rest
      rw [ooc_ids] at hj
      obtain ⟨i, hi, rfl, hflag⟩ := (oocGo_mem ucl lcl vals 0 j).mp hj
      exact absurd hflag (hnone i hi)

theorem claim_c6_witness :
    ((2 : ℕ) ∈ ooc_ids [5, 10, 1, 7] 8 2 ↔
      ((8 : ℚ) < 10 ∨ (10 : ℚ) < 2)) ∧
    ((1 : ℕ) + 1 ∉ ooc_ids [8, 2] 8 2) := by
  constructor
  · exact (claim_c6 [5, 10, 1, 7] 8 2).1 1 (by decide)
  · exact (claim_c6 [8, 2] 8 2).2.2.1 (by decide) 1 (by decide) (Or.inr rfl)


/-- Claim C7: with std the sample standard deviation (ddof = 1) of the
combined sequence, a positive std yields Cp = (USL-LSL)/(6 std),
Cpk = min((USL-mean)/(3 std), (mean-LSL)/(3 std)) and
sigma_level = round(Cpk*3, 3); std = 0 yields Cp = Cpk = sigma_level =
infinity and risk_level "N/A". -/
theorem claim_c7 (combined : List ℚ) (usl lsl std : ℚ)
    (hlen : 2 ≤ combined.length) (hstd0 : 0 ≤ std)
    (hstd : std ^ 2 = sampleVar combined) :
    (0 < std →
      (computeMetrics combined usl lsl std).cp = .fin ((usl - lsl) / (6 * std))
      ∧ (computeMetrics combined usl lsl std).cpk
          = .fin (min ((usl - listMean combined) / (3 * std))
              ((listMean combined - lsl) / (3 * std)))
      ∧ (computeMetrics combined usl lsl std).sigmaLevel
          = .fin (round3 (min ((usl - listMean combined) / (3 * std))
              ((listMean combined - lsl) / (3 * std)) * 3)))
    ∧ (std = 0 →
      (computeMetrics combined usl lsl std).cp = .inf
      ∧ (computeMetrics combined usl lsl std).cpk = .inf
      ∧ (computeMetrics combined usl lsl std).sigmaLevel = .inf
      ∧ (computeMetrics combined usl lsl std).riskLevel = "N/A") := by
  constructor
  · intro hpos
    refine ⟨?_, ?_, ?_⟩ <;>
      simp [computeMetrics, cpOf, cpkOf, sigmaLevelOf, hpos]
  · intro hzero
    subst hzero
    refine ⟨?_, ?_, ?_, ?_⟩ <;>
      simp [computeMetrics, cpOf, cpkOf, sigmaLevelOf, sigma_to_risk, lt_irrefl]

theorem claim_c7_witness :
    (computeMetrics [0, 0] 10 0 0).cp = PyFloat.inf ∧
    (computeMetrics [0, 0] 10 0 0).riskLevel = "N/A" := by
  have h := claim_c7 [0, 0] 10 0 0 (by decide) (le_refl 0) (by simp [sampleVar, listMean])
  exact ⟨(h.2 rfl).1, (h.2 rfl).2.2.2⟩

/-- Claim C8: loading either persisted store from a missing or malformed
backing file is non-fatal by construction: the memory store initialises
empty and the sigma-cache lookup answers none (not found). -/
theorem claim_c8 (product feature : String) :
    memoryInit FileState.missing = []
    ∧ memoryInit FileState.malformed = []
    ∧ load_last_sigma FileState.missing product feature = none
    ∧ load_last_sigma FileState.malformed product feature = none :=
  ⟨rfl, rfl, rfl, rfl⟩

/-- Claim C10: the sort key applies int() to every stored id, so an append
whose batch carries a non-numeric id such as "A1" raises ValueError
(none); and the operation completes whenever every stored and batch id
parses as an integer. -/
theorem claim_c10 :
    add_imr_points [] "20240101-20240107" ["A1"] [1] = none
    ∧ ∀ (bucket : List Obs) (week : String) (ids : List String) (values : List ℚ),
        (∀ r ∈ bucket, idOk r = true) →
        (∀ i ∈ ids, (pyInt i).isSome = true) →
        (add_imr_points bucket week ids values).isSome = true := by
  constructor
  · decide
  · intro bucket week ids values hbucket hids
    unfold add_imr_points
    have hall : (bucket ++ freshObs bucket week ids values).all idOk = true := by
      rw [List.all_eq_true]
      intro r hr
      rcases List.mem_append.mp hr with hh | hh
      · exact hbucket r hh
      · obtain ⟨⟨a, b⟩, hp, _, rfl⟩ := mem_freshObs.mp hh
        exact hids a (List.of_mem_zip hp).1
    rw [if_pos hall]
    rfl

theorem claim_c10_witness :
    (add_imr_points [] "20240101-20240107" ["7"] [1]).isSome = true :=
  claim_c10.2 [] "20240101-20240107" ["7"] [1] (by decide) (by decide)

/-- Claim C2: when the current week alone meets the threshold the run goes
straight to READY with the current values, in file order, as the whole
chart input; no history is fetched (histUsed and histWeeks stay empty) and
nothing historical is mixed in. -/
theorem claim_c2 (mem : MemStore) (product feature week : String)
    (curIds : List String) (curVals : List ℚ) (threshold : ℕ) (strategy : String)
    (h : threshold ≤ curVals.length) :
    run_imr_spc mem product feature week curIds curVals threshold strategy =
      ⟨false, true, curVals, [], [], none,
        eraseKey mem (storeKey product feature), [storeKey product feature]⟩ := by
  unfold run_imr_spc
  rw [if_neg (by omega)]

theorem claim_c2_witness :
    run_imr_spc [] "P" "F" "20240101-20240107" ["1", "2"] [5, 6] 2 "all" =
      ⟨false, true, [5, 6], [], [], none,
        eraseKey [] (storeKey "P" "F"), [storeKey "P" "F"]⟩ :=
  claim_c2 [] "P" "F" "20240101-20240107" ["1", "2"] [5, 6] 2 "all" (by decide)

theorem run_lt_facts (mem : MemStore) (product feature week : String)
    (curIds : List String) (curVals : List ℚ) (T : ℕ) (strategy : String)
    (hn : curVals.length < T) :
    (run_imr_spc mem product feature week curIds curVals T strategy).histUsed =
      (take_imr_until (lookupKey mem (storeKey product feature))
        (needOf strategy T curVals.length) (some week)).2
    ∧ ((run_imr_spc mem product feature week curIds curVals T strategy).producedChart = false ↔
      (take_imr_until (lookupKey mem (storeKey product feature))
        (needOf strategy T curVals.length) (some week)).2.length + curVals.length < T) := by
  simp only [run_imr_spc]
  rw [if_pos hn]
  by_cases hc : ((take_imr_until (lookupKey mem (storeKey product feature))
      (needOf strategy T curVals.length) (some week)).2 ++ curVals).length < T
  · rw [if_pos hc]
    rw [List.length_append] at hc
    rcases hadd : add_imr_points (lookupKey mem (storeKey product feature)) week curIds curVals with _ | b2 <;>
      simp [hadd, hc]
  · rw [if_neg hc]
    rw [List.length_append] at hc
    simp [hc]

/-- Claim C1: with the current week short of the threshold, strategy "all"
fetches every stored historical point outside the current week and defers
exactly when history plus current stays below the threshold; strategy
"fill_to_threshold" fetches at most T - n points and defers exactly when
fewer than T - n historical points outside the current week exist. -/
theorem claim_c1 (mem : MemStore) (product feature week : String)
    (curIds : List String) (curVals : List ℚ) (T : ℕ)
    (hw : week ≠ "") (hn : curVals.length < T) :
    ((run_imr_spc mem product feature week curIds curVals T "all").histUsed
        = (histRecords (lookupKey mem (storeKey product feature)) week).map Obs.value
      ∧ ((run_imr_spc mem product feature week curIds curVals T "all").producedChart = false
          ↔ (histRecords (lookupKey mem (storeKey product feature)) week).length
              + curVals.length < T))
    ∧ ((run_imr_spc mem product feature week curIds curVals T
          "fill_to_threshold").histUsed.length ≤ T - curVals.length
      ∧ ((run_imr_spc mem product feature week curIds curVals T
            "fill_to_threshold").producedChart = false
          ↔ (histRecords (lookupKey mem (storeKey product feature)) week).length
              < T - curVals.length)) := by
  have hall := run_lt_facts mem product feature week curIds curVals T "all" hn
  have hfill := run_lt_facts mem product feature week curIds curVals T "fill_to_threshold" hn
  have hneed_all : needOf "all" T curVals.length = none := by
    unfold needOf
    rw [if_neg (by decide)]
  have hneed_fill : needOf "fill_to_threshold" T curVals.length =
      some (T - curVals.length) := by
    unfold needOf
    rw [if_pos rfl]
  rw [hneed_all, take_imr_until_none _ _ hw] at hall
  rw [hneed_fill, take_imr_until_some _ _ _ hw (by omega)] at hfill
  constructor
  · constructor
    · exact hall.1
    · rw [hall.2]
      simp [List.length_map]
  · constructor
    · rw [hfill.1]
      simp [List.length_take]
    · rw [hfill.2]
      simp only [List.length_take, List.length_map]
      omega

theorem claim_c1_witness :
    ((run_imr_spc [] "P" "F" "20240108-20240114" ["1"] [5] 3 "all").histUsed
        = (histRecords (lookupKey [] (storeKey "P" "F")) "20240108-20240114").map Obs.value
      ∧ ((run_imr_spc [] "P" "F" "20240108-20240114" ["1"] [5] 3 "all").producedChart = false
          ↔ (histRecords (lookupKey [] (storeKey "P" "F")) "20240108-20240114").length + 1 < 3))
    ∧ ((run_imr_spc [] "P" "F" "20240108-20240114" ["1"] [5] 3
          "fill_to_threshold").histUsed.length ≤ 3 - 1
      ∧ ((run_imr_spc [] "P" "F" "20240108-20240114" ["1"] [5] 3
            "fill_to_threshold").producedChart = false
          ↔ (histRecords (lookupKey [] (storeKey "P" "F")) "20240108-20240114").length
              < 3 - 1)) :=
  claim_c1 [] "P" "F" "20240108-20240114" ["1"] [5] 3 (by decide) (by decide)

/-- Claim C3: on a deferred run the only durable change is the append of
the current week's (id, value) pairs under the feature's key: the run
produces no chart, prints exactly the accumulation message with
current(n), history(m) and total n+m over the threshold, writes nothing to
the sigma cache, leaves every other key untouched, and keeps every
observation the bucket already had. -/
theorem claim_c3 (mem : MemStore) (product feature week : String)
    (curIds : List String) (curVals : List ℚ) (T : ℕ) (strategy : String)
    (b2 : List Obs)
    (hn : curVals.length < T)
    (hdef : (take_imr_until (lookupKey mem (storeKey product feature))
        (needOf strategy T curVals.length) (some week)).2.length + curVals.length < T)
    (hadd : add_imr_points (lookupKey mem (storeKey product feature)) week curIds curVals
        = some b2) :
    run_imr_spc mem product feature week curIds curVals T strategy =
      ⟨false, false, [],
        (take_imr_until (lookupKey mem (storeKey product feature))
          (needOf strategy T curVals.length) (some week)).2,
        (take_imr_until (lookupKey mem (storeKey product feature))
          (needOf strategy T curVals.length) (some week)).1,
        some (accumMsg product feature curVals.length
          (take_imr_until (lookupKey mem (storeKey product feature))
            (needOf strategy T curVals.length) (some week)).2.length
          ((take_imr_until (lookupKey mem (storeKey product feature))
            (needOf strategy T curVals.length) (some week)).2.length + curVals.length) T),
        setKey mem (storeKey product feature) b2, []⟩
    ∧ (∀ k2, k2 ≠ storeKey product feature →
        (setKey mem (storeKey product feature) b2).lookup k2 = mem.lookup k2)
    ∧ (∀ r ∈ lookupKey mem (storeKey product feature), r ∈ b2) := by
  refine ⟨?_, ?_, ?_⟩
  · simp only [run_imr_spc]
    rw [if_pos hn]
    rw [if_pos (by rw [List.length_append]; omega)]
    rw [hadd]
    rw [List.length_append]
  · intro k2 hk2
    exact lookup_setKey_ne mem (storeKey product feature) b2 k2 hk2
  · intro r hr
    exact (add_imr_points_perm hadd).mem_iff.mpr
      (List.mem_append_left _ hr)

theorem claim_c3_witness :
    (run_imr_spc [] "P" "F" "20240101-20240107" ["1"] [5] 3 "all").message =
      some (accumMsg "P" "F" 1 0 1 3) ∧
    (run_imr_spc [] "P" "F" "20240101-20240107" ["1"] [5] 3 "all").sigmaWrites = [] := by
  have h := claim_c3 [] "P" "F" "20240101-20240107" ["1"] [5] 3 "all"
    [Obs.mk "IMR" "20240101-20240107" "1" 5] (by decide) (by decide) (by decide)
  rw [h.1]
  constructor <;> rfl

theorem run_ready_facts (mem : MemStore) (product feature week : String)
    (curIds : List String) (curVals : List ℚ) (T : ℕ) (strategy : String) :
    (run_imr_spc mem product feature week curIds curVals T strategy).producedChart = true →
      (run_imr_spc mem product feature week curIds curVals T strategy).memAfter =
        eraseKey mem (storeKey product feature)
      ∧ (run_imr_spc mem product feature week curIds curVals T strategy).sigmaWrites =
        [storeKey product feature] := by
  simp only [run_imr_spc]
  by_cases hn : curVals.length < T
  · rw [if_pos hn]
    by_cases hc : ((take_imr_until (lookupKey mem (storeKey product feature))
        (needOf strategy T curVals.length) (some week)).2 ++ curVals).length < T
    · rw [if_pos hc]
      rcases hadd : add_imr_points (lookupKey mem (storeKey product feature))
          week curIds curVals with _ | b2 <;> simp
    · rw [if_neg hc]
      intro
      exact ⟨rfl, rfl⟩
  · rw [if_neg hn]
    intro
    exact ⟨rfl, rfl⟩

/-- Claim C9: every READY outcome ends by writing the sigma cache and
clearing the feature's bucket, whatever branch reached READY — including
the cur_n ≥ threshold branch where history was never consulted — so any
accumulated points under that key are deleted even when unused; other
keys are untouched. -/
theorem claim_c9 (mem : MemStore) (product feature week : String)
    (curIds : List String) (curVals : List ℚ) (T : ℕ) (strategy : String) :
    ((run_imr_spc mem product feature week curIds curVals T strategy).producedChart = true →
      (run_imr_spc mem product feature week curIds curVals T strategy).memAfter =
          clear_feature mem product feature
      ∧ (run_imr_spc mem product feature week curIds curVals T strategy).sigmaWrites =
          [storeKey product feature]
      ∧ ((run_imr_spc mem product feature week curIds curVals T strategy).memAfter.lookup
          (storeKey product feature)) = none
      ∧ ∀ k2, k2 ≠ storeKey product feature →
          (run_imr_spc mem product feature week curIds curVals T strategy).memAfter.lookup k2
            = mem.lookup k2)
    ∧ (T ≤ curVals.length →
      (run_imr_spc mem product feature week curIds curVals T strategy).producedChart = true
      ∧ (run_imr_spc mem product feature week curIds curVals T strategy).histUsed = []) := by
  constructor
  · intro hchart
    obtain ⟨hmem, hsig⟩ := run_ready_facts mem product feature week curIds curVals T
      strategy hchart
    refine ⟨hmem, hsig, ?_, ?_⟩
    · rw [hmem]
      exact lookup_eraseKey_self mem (storeKey product feature)
    · intro k2 hk2
      rw [hmem]
      exact lookup_eraseKey_ne mem (storeKey product feature) k2 hk2
  · intro hge
    have hnot : ¬ curVals.length < T := by omega
    constructor <;> simp only [run_imr_spc, if_neg hnot]

theorem claim_c9_witness :
    (run_imr_spc [("P|F", [Obs.mk "IMR" "20231225-20240101" "1" 4])]
        "P" "F" "20240101-20240107" ["1", "2"] [5, 6] 2 "all").memAfter =
      clear_feature [("P|F", [Obs.mk "IMR" "20231225-20240101" "1" 4])] "P" "F"
    ∧ (run_imr_spc [("P|F", [Obs.mk "IMR" "20231225-20240101" "1" 4])]
        "P" "F" "20240101-20240107" ["1", "2"] [5, 6] 2 "all").producedChart = true := by
  have h := claim_c9 [("P|F", [Obs.mk "IMR" "20231225-20240101" "1" 4])]
    "P" "F" "20240101-20240107" ["1", "2"] [5, 6] 2 "all"
  have hready := h.2 (by decide)
  exact ⟨(h.1 hready.1).1, hready.1⟩
